import Mathlib

/-!
Verification of the one-shot source-text transformer (`fix_status.py`).

The script reads `cmd/tmux-intray/status.go` as a list of newline-inclusive
lines, inserts a storage-import line immediately after every line containing
the cmd-import anchor substring, joins the lines back into one text, applies
six literal regex substitutions in a fixed order, and writes the result back
to the same path.

Texts are modelled as `List Char`.  All recursive functions are structural
(fuel-based where the source recursion skips ahead), so every definition
evaluates inside the kernel.
-/

set_option maxRecDepth 10000

/-- The anchor substring of the injection step:
`'"github.com/cristianoliveira/tmux-intray/cmd"' in line`. -/
def anchor : List Char := "\"github.com/cristianoliveira/tmux-intray/cmd\"".toList

/-- The inserted line:
`'\t"github.com/cristianoliveira/tmux-intray/internal/storage"\n'`. -/
def insertion : List Char :=
  "\t\"github.com/cristianoliveira/tmux-intray/internal/storage\"\n".toList

/-- Python's substring test `pat in s`: does `pat` occur contiguously in `s`? -/
def containsSub (pat : List Char) : List Char → Bool
  | [] => pat.isPrefixOf []
  | c :: rest => pat.isPrefixOf (c :: rest) || containsSub pat rest

/-- The newline-inclusive (keepends) split underlying `readlines`,
applied to the already-decoded text stream. -/
def splitLines : List Char → List (List Char)
  | [] => []
  | c :: rest =>
    if c = '\n' then ['\n'] :: splitLines rest
    else
      match splitLines rest with
      | [] => [[c]]
      | l :: ls => (c :: l) :: ls

/-- The injection loop building `new_lines`: copy each line, and after every
line containing `anchor` also emit `insertion`. -/
def inject : List (List Char) → List (List Char)
  | [] => []
  | l :: rest =>
    if containsSub anchor l then l :: insertion :: inject rest
    else l :: inject rest

/-- Fuelled literal substitution: scan left to right, on a match emit `rep`
and resume after the matched span, exactly as `re.sub` does for a literal
pattern.  The fuel only makes the recursion structural; with fuel at least
the length of the text it computes the untruncated result. -/
def replaceAllF (pat rep : List Char) : Nat → List Char → List Char
  | 0, t => t
  | f + 1, t =>
    match t with
    | [] => []
    | c :: rest =>
      if pat.isPrefixOf (c :: rest) = true ∧ pat ≠ [] then
        rep ++ replaceAllF pat rep f (rest.drop (pat.length - 1))
      else
        c :: replaceAllF pat rep f rest

/-- `re.sub(pat, rep, t)` for a literal pattern `pat`: replace every
non-overlapping occurrence, scanning left to right. -/
def replaceAll (pat rep t : List Char) : List Char := replaceAllF pat rep t.length t

/-- Fuelled count of the non-overlapping left-to-right matches that
`replaceAllF` replaces. -/
def countOccsF (pat : List Char) : Nat → List Char → Nat
  | 0, _ => 0
  | f + 1, t =>
    match t with
    | [] => 0
    | c :: rest =>
      if pat.isPrefixOf (c :: rest) = true ∧ pat ≠ [] then
        countOccsF pat f (rest.drop (pat.length - 1)) + 1
      else
        countOccsF pat f rest

/-- Number of non-overlapping left-to-right occurrences of `pat` in `t`. -/
def countOccs (pat t : List Char) : Nat := countOccsF pat t.length t

/-- Pattern of rule 1: `len\(fields\) <= 8` (a literal after unescaping). -/
def p1 : List Char := "len(fields) <= 8".toList

/-- Replacement of rule 1. -/
def r1 : List Char := "len(fields) <= storage.FieldLevel".toList

/-- Pattern of rule 2: `fields\[8\]`. -/
def p2 : List Char := "fields[8]".toList

/-- Replacement of rule 2. -/
def r2 : List Char := "fields[storage.FieldLevel]".toList

/-- Pattern of rule 3: `len\(fields\) <= 5`. -/
def p3 : List Char := "len(fields) <= 5".toList

/-- Replacement of rule 3. -/
def r3 : List Char := "len(fields) <= storage.FieldPane".toList

/-- Pattern of rule 4: `fields\[3\]`. -/
def p4 : List Char := "fields[3]".toList

/-- Replacement of rule 4. -/
def r4 : List Char := "fields[storage.FieldSession]".toList

/-- Pattern of rule 5: `fields\[4\]`. -/
def p5 : List Char := "fields[4]".toList

/-- Replacement of rule 5. -/
def r5 : List Char := "fields[storage.FieldWindow]".toList

/-- Pattern of rule 6: `fields\[5\]`. -/
def p6 : List Char := "fields[5]".toList

/-- Replacement of rule 6. -/
def r6 : List Char := "fields[storage.FieldPane]".toList

/-- The ordered rule list of the program (patterns already unescaped). -/
def rules : List (List Char × List Char) :=
  [(p1, r1), (p2, r2), (p3, r3), (p4, r4), (p5, r5), (p6, r6)]

/-- The six `re.sub` lines applied in program order. -/
def rewriteAll (t : List Char) : List Char :=
  replaceAll p6 r6 (replaceAll p5 r5 (replaceAll p4 r4
    (replaceAll p3 r3 (replaceAll p2 r2 (replaceAll p1 r1 t)))))

/-- The in-memory transformation of the whole script: split into lines,
inject, join (`''.join(new_lines)`), then rewrite. -/
def transform (x : List Char) : List Char :=
  rewriteAll (inject (splitLines x)).flatten

/-- Python text-mode reading uses universal-newline translation: each
`\r\n` pair and each lone `\r` in the raw file content is decoded to a
single `\n`. -/
def univNewlines : List Char → List Char
  | [] => []
  | [c] => if c = '\r' then ['\n'] else [c]
  | c :: d :: rest =>
    if c = '\r' then
      if d = '\n' then '\n' :: univNewlines rest
      else '\n' :: univNewlines (d :: rest)
    else c :: univNewlines (d :: rest)

/-- `f.readlines()` as a function of the file's raw content: text-mode
decode, then the newline-inclusive split. -/
def readLines (x : List Char) : List (List Char) := splitLines (univNewlines x)

/-- The content written back, as a function of the file's raw content:
decode on read, split, inject, join, rewrite.  On the script's platform
the text-mode write maps `\n` to itself, so writing adds no further
translation. -/
def transformFile (x : List Char) : List Char :=
  rewriteAll (inject (readLines x)).flatten

/-- Error taxonomy of a run. -/
inductive RunErr where
  | notFoundError : RunErr
  | patternError : RunErr
deriving DecidableEq

/-- Compilation of a regex pattern string, for the fragment of regex syntax
the script uses: a backslash escape yields the escaped character literally,
a dangling backslash at the end of the pattern fails to compile
(`re.error: bad escape`), and any other character stands for itself. -/
def compilePat : List Char → Except RunErr (List Char)
  | [] => Except.ok []
  | '\\' :: [] => Except.error RunErr.patternError
  | '\\' :: c :: rest => (compilePat rest).map (fun l => c :: l)
  | c :: rest =>
    match compilePat rest with
    | Except.ok l => Except.ok (c :: l)
    | Except.error e => Except.error e

/-- The raw (escaped) rule list exactly as written in the source. -/
def rawRules : List (List Char × List Char) :=
  [("len\\(fields\\) <= 8".toList, r1),
   ("fields\\[8\\]".toList, r2),
   ("len\\(fields\\) <= 5".toList, r3),
   ("fields\\[3\\]".toList, r4),
   ("fields\\[4\\]".toList, r5),
   ("fields\\[5\\]".toList, r6)]

/-- Apply an ordered rule list to a text: compile each pattern, substitute,
feed the result to the next rule; a pattern that fails to compile aborts. -/
def applyRules : List (List Char × List Char) → List Char → Except RunErr (List Char)
  | [], t => Except.ok t
  | (p, r) :: rest, t =>
    match compilePat p with
    | Except.error e => Except.error e
    | Except.ok lit => applyRules rest (replaceAll lit r t)

/-- One whole run of the script against a file store holding the target file
(`none` = the path does not exist).  Returns the final file store and the
run's outcome.  The write back to the store happens only after the load and
every substitution succeeded. -/
def runWith (rs : List (List Char × List Char)) (file : Option (List Char)) :
    Option (List Char) × Except RunErr Unit :=
  match file with
  | none => (none, Except.error RunErr.notFoundError)
  | some c =>
    match applyRules rs (inject (splitLines c)).flatten with
    | Except.error e => (some c, Except.error e)
    | Except.ok t => (some t, Except.ok ())

/-- The actual run: the fixed rule list of the program. -/
def run (file : Option (List Char)) : Option (List Char) × Except RunErr Unit :=
  runWith rawRules file

/-- `x` and `y` diverge: neither is a prefix of the other. -/
def sepAt (x y : List Char) : Bool := !(x.isPrefixOf y) && !(y.isPrefixOf x)

/-- No occurrence of `pat` can intersect an occurrence of `a` in any text:
at every relative offset the two strings conflict somewhere on their
overlap.  Checked for `pat` starting at offset `j` inside `a` (first
conjunct) and for `pat` starting `s` positions before `a` (second). -/
def overlapFree (a pat : List Char) : Bool :=
  ((List.range a.length).all fun j => sepAt pat (a.drop j)) &&
  ((List.range pat.length).all fun s => s == 0 || sepAt (pat.drop s) a)

/-- The six rules with the first and third entries exchanged. -/
def rulesSwap13 : List (List Char × List Char) :=
  [(p3, r3), (p2, r2), (p1, r1), (p4, r4), (p5, r5), (p6, r6)]

/-- Left fold of an ordered rule list over a text. -/
def foldRules (rs : List (List Char × List Char)) (t : List Char) : List Char :=
  rs.foldl (fun acc pr => replaceAll pr.1 pr.2 acc) t

/-- The six (unescaped) patterns of the rule list. -/
def pats : List (List Char) := [p1, p2, p3, p4, p5, p6]

/-- A full line: ends with its terminating newline and has no other
newline. -/
def lineOK (l : List Char) : Prop := ∃ b, l = b ++ ['\n'] ∧ '\n' ∉ b

/-- The insertion line without its terminating newline. -/
def insertionBody : List Char :=
  "\t\"github.com/cristianoliveira/tmux-intray/internal/storage\"".toList

/-! ### Fuel infrastructure for `replaceAll` and `countOccs` -/

theorem replaceAllF_fuel (pat rep : List Char) :
    ∀ f₁ f₂ t, t.length ≤ f₁ → t.length ≤ f₂ →
      replaceAllF pat rep f₁ t = replaceAllF pat rep f₂ t := by
  intro f₁
  induction f₁ with
  | zero =>
    intro f₂ t h1 _
    have ht : t = [] := List.eq_nil_of_length_eq_zero (Nat.le_zero.mp h1)
    subst ht
    cases f₂ <;> rfl
  | succ f ih =>
    intro f₂ t h1 h2
    cases t with
    | nil => cases f₂ <;> rfl
    | cons c rest =>
      cases f₂ with
      | zero => simp at h2
      | succ g =>
        simp only [replaceAllF]
        simp only [List.length_cons] at h1 h2
        by_cases hc : pat.isPrefixOf (c :: rest) = true ∧ pat ≠ []
        · simp only [if_pos hc]
          congr 1
          apply ih
          · simp only [List.length_drop]; omega
          · simp only [List.length_drop]; omega
        · simp only [if_neg hc]
          congr 1
          exact ih g rest (by omega) (by omega)

theorem replaceAll_cons (pat rep : List Char) (c : Char) (rest : List Char) :
    replaceAll pat rep (c :: rest) =
      if pat.isPrefixOf (c :: rest) = true ∧ pat ≠ [] then
        rep ++ replaceAll pat rep (rest.drop (pat.length - 1))
      else
        c :: replaceAll pat rep rest := by
  show replaceAllF pat rep (c :: rest).length (c :: rest) = _
  simp only [List.length_cons, replaceAllF]
  by_cases hc : pat.isPrefixOf (c :: rest) = true ∧ pat ≠ []
  · simp only [if_pos hc]
    congr 1
    apply replaceAllF_fuel
    · simp only [List.length_drop]; omega
    · exact Nat.le_refl _
  · simp only [if_neg hc]
    rfl

theorem countOccsF_fuel (pat : List Char) :
    ∀ f₁ f₂ t, t.length ≤ f₁ → t.length ≤ f₂ →
      countOccsF pat f₁ t = countOccsF pat f₂ t := by
  intro f₁
  induction f₁ with
  | zero =>
    intro f₂ t h1 _
    have ht : t = [] := List.eq_nil_of_length_eq_zero (Nat.le_zero.mp h1)
    subst ht
    cases f₂ <;> rfl
  | succ f ih =>
    intro f₂ t h1 h2
    cases t with
    | nil => cases f₂ <;> rfl
    | cons c rest =>
      cases f₂ with
      | zero => simp at h2
      | succ g =>
        simp only [countOccsF]
        simp only [List.length_cons] at h1 h2
        by_cases hc : pat.isPrefixOf (c :: rest) = true ∧ pat ≠ []
        · simp only [if_pos hc]
          congr 1
          apply ih
          · simp only [List.length_drop]; omega
          · simp only [List.length_drop]; omega
        · simp only [if_neg hc]
          exact ih g rest (by omega) (by omega)

theorem countOccs_cons (pat : List Char) (c : Char) (rest : List Char) :
    countOccs pat (c :: rest) =
      if pat.isPrefixOf (c :: rest) = true ∧ pat ≠ [] then
        countOccs pat (rest.drop (pat.length - 1)) + 1
      else
        countOccs pat rest := by
  show countOccsF pat (c :: rest).length (c :: rest) = _
  simp only [List.length_cons, countOccsF]
  by_cases hc : pat.isPrefixOf (c :: rest) = true ∧ pat ≠ []
  · simp only [if_pos hc]
    congr 1
    apply countOccsF_fuel
    · simp only [List.length_drop]; omega
    · exact Nat.le_refl _
  · simp only [if_neg hc]
    rfl

/-- `containsSub` decides contiguous-substring occurrence. -/
theorem containsSub_iff (pat t : List Char) : containsSub pat t = true ↔ pat <:+: t := by
  induction t with
  | nil => simp [containsSub]
  | cons c rest ih =>
    simp only [containsSub, Bool.or_eq_true, List.isPrefixOf_iff_prefix, ih]
    constructor
    · rintro (h | h)
      · exact h.isInfix
      · exact List.infix_cons h
    · intro h
      rcases List.infix_cons_iff.mp h with h | h
      · exact Or.inl h
      · exact Or.inr h

/-! ### Occurrences of a string survive substitutions that cannot overlap it -/

theorem sepAt_not_prefix_append {x y : List Char} (h : sepAt x y = true) (v : List Char) :
    ¬ x <+: y ++ v := by
  intro hx
  simp only [sepAt, Bool.and_eq_true, Bool.not_eq_true'] at h
  rcases h with ⟨h1, h2⟩
  rcases List.prefix_or_prefix_of_prefix hx (List.prefix_append y v) with h | h
  · rw [← List.isPrefixOf_iff_prefix] at h
    rw [h] at h1
    exact Bool.true_eq_false.mp h1
  · rw [← List.isPrefixOf_iff_prefix] at h
    rw [h] at h2
    exact Bool.true_eq_false.mp h2

theorem overlapFree_inside {a pat : List Char} (h : overlapFree a pat = true)
    {j : ℕ} (hj : j < a.length) (v : List Char) : ¬ pat <+: a.drop j ++ v := by
  have h1 := (Bool.and_eq_true _ _).mp h |>.1
  rw [List.all_eq_true] at h1
  exact sepAt_not_prefix_append (h1 j (List.mem_range.mpr hj)) v

theorem overlapFree_straddle {a pat : List Char} (h : overlapFree a pat = true)
    {s : ℕ} (hs1 : 1 ≤ s) (hs2 : s < pat.length) (v : List Char) :
    ¬ pat.drop s <+: a ++ v := by
  have h2 := (Bool.and_eq_true _ _).mp h |>.2
  rw [List.all_eq_true] at h2
  have hx := h2 s (List.mem_range.mpr hs2)
  rw [Bool.or_eq_true] at hx
  rcases hx with h0 | hsep
  · have hs0 : s = 0 := by simpa using h0
    exact absurd hs0 (by omega)
  · exact sepAt_not_prefix_append hsep v

theorem prefix_drop_of_prefix_append {pat w z : List Char} (hp : pat <+: w ++ z)
    (hle : w.length ≤ pat.length) : pat.drop w.length <+: z := by
  obtain ⟨r, hr⟩ := hp
  refine ⟨r, ?_⟩
  have h := congrArg (List.drop w.length) hr
  rwa [List.drop_append_eq_append_drop, List.drop_append_eq_append_drop,
    Nat.sub_eq_zero_of_le hle, Nat.sub_self, List.drop_zero, List.drop_length,
    List.drop_zero, List.nil_append] at h

theorem replaceAll_skip {a pat rep : List Char} (hof : overlapFree a pat = true) :
    ∀ d v k, k < a.length → d = a.drop k →
      replaceAll pat rep (d ++ v) = d ++ replaceAll pat rep v := by
  intro d
  induction d with
  | nil =>
    intro v k hk hd
    have hlen := congrArg List.length hd
    simp only [List.length_nil, List.length_drop] at hlen
    omega
  | cons c d' ih =>
    intro v k hk hd
    rw [List.cons_append, replaceAll_cons]
    have hnp : ¬ (pat.isPrefixOf (c :: (d' ++ v)) = true ∧ pat ≠ []) := by
      rintro ⟨hp, -⟩
      rw [List.isPrefixOf_iff_prefix] at hp
      have hco : c :: (d' ++ v) = a.drop k ++ v := by rw [← hd]; rfl
      rw [hco] at hp
      exact overlapFree_inside hof hk v hp
    rw [if_neg hnp]
    have hd' : d' = a.drop (k + 1) := by
      have h := congrArg List.tail hd
      simpa [List.tail_drop] using h
    by_cases hk1 : k + 1 < a.length
    · rw [ih v (k + 1) hk1 hd']
      rfl
    · have hnil : d' = [] := by
        rw [hd']
        have : a.length - (k + 1) = 0 := by omega
        apply List.eq_nil_of_length_eq_zero
        simp [List.length_drop, this]
      subst hnil
      simp

theorem infix_replaceAll {a pat rep : List Char} (hof : overlapFree a pat = true) :
    ∀ n t, t.length ≤ n → a <:+: t → a <:+: replaceAll pat rep t := by
  intro n
  induction n with
  | zero =>
    intro t ht hinf
    have hnil : t = [] := List.eq_nil_of_length_eq_zero (Nat.le_zero.mp ht)
    subst hnil
    exact hinf
  | succ n ih =>
    intro t ht hinf
    obtain ⟨u, v, huv⟩ := hinf
    cases u with
    | nil =>
      by_cases haz : a = []
      · subst haz
        exact List.nil_infix
      · have ha1 : 0 < a.length := List.length_pos.mpr haz
        rw [← huv, List.nil_append,
          replaceAll_skip hof a v 0 ha1 (by rw [List.drop_zero])]
        exact (List.prefix_append a (replaceAll pat rep v)).isInfix
    | cons c u' =>
      have ht' : t = c :: (u' ++ (a ++ v)) := by rw [← huv]; simp
      subst ht'
      rw [replaceAll_cons]
      simp only [List.length_cons, List.length_append] at ht
      by_cases hc : pat.isPrefixOf (c :: (u' ++ (a ++ v))) = true ∧ pat ≠ []
      · rw [if_pos hc]
        obtain ⟨hp, hpne⟩ := hc
        rw [List.isPrefixOf_iff_prefix] at hp
        have hp1 : 1 ≤ pat.length := List.length_pos.mpr hpne
        have hple : pat.length ≤ u'.length + 1 := by
          by_contra hgt
        -- the match would straddle the occurrence of `a`, impossible
          push_neg at hgt
          have hpre : pat <+: (c :: u') ++ (a ++ v) := by simpa using hp
          have hdrop : pat.drop (u'.length + 1) <+: a ++ v :=
            prefix_drop_of_prefix_append hpre (by simp; omega)
          exact overlapFree_straddle hof (by omega) (by omega) v hdrop
        have hz : pat.length - 1 - u'.length = 0 := by omega
        have hrest : (u' ++ (a ++ v)).drop (pat.length - 1) =
            u'.drop (pat.length - 1) ++ (a ++ v) := by
          rw [List.drop_append_eq_append_drop, hz, List.drop_zero]
        rw [hrest]
        have hlen : (u'.drop (pat.length - 1) ++ (a ++ v)).length ≤ n := by
          simp only [List.length_append, List.length_drop]
          omega
        have hrec := ih _ hlen ⟨u'.drop (pat.length - 1), v, by simp⟩
        exact hrec.trans (List.suffix_append rep _).isInfix
      · rw [if_neg hc]
        exact List.infix_cons (ih (u' ++ (a ++ v))
          (by simp only [List.length_append]; omega) ⟨u', v, by simp⟩)

/-- Substitution of a non-occurring pattern is the identity. -/
theorem replaceAll_id_of_not_contains {pat rep : List Char} :
    ∀ t, containsSub pat t = false → replaceAll pat rep t = t := by
  intro t
  induction t with
  | nil => intro _; rfl
  | cons c rest ih =>
    intro h
    simp only [containsSub, Bool.or_eq_false_iff] at h
    rw [replaceAll_cons, if_neg (by simp [h.1]), ih h.2]

/-- The substitution replaces each of the `countOccs` matches: the length
changes by exactly the pattern/replacement difference per match. -/
theorem replaceAll_length_eq (pat rep : List Char) :
    ∀ n t, t.length ≤ n →
      (replaceAll pat rep t).length + countOccs pat t * pat.length =
        t.length + countOccs pat t * rep.length := by
  intro n
  induction n with
  | zero =>
    intro t ht
    have hnil : t = [] := List.eq_nil_of_length_eq_zero (Nat.le_zero.mp ht)
    subst hnil
    simp [replaceAll, replaceAllF, countOccs, countOccsF]
  | succ n ih =>
    intro t ht
    cases t with
    | nil => simp [replaceAll, replaceAllF, countOccs, countOccsF]
    | cons c rest =>
      rw [replaceAll_cons, countOccs_cons]
      simp only [List.length_cons] at ht
      by_cases hc : pat.isPrefixOf (c :: rest) = true ∧ pat ≠ []
      · rw [if_pos hc, if_pos hc]
        have hple : pat.length ≤ rest.length + 1 := by
          have hx := hc.1
          rw [List.isPrefixOf_iff_prefix] at hx
          simpa using hx.length_le
        have hp1 : 1 ≤ pat.length := List.length_pos.mpr hc.2
        have ihd := ih (rest.drop (pat.length - 1))
          (by simp only [List.length_drop]; omega)
        simp only [List.length_append, List.length_cons, List.length_drop] at ihd ⊢
        rw [Nat.add_mul, Nat.add_mul, one_mul, one_mul]
        omega
      · rw [if_neg hc, if_neg hc]
        have ihr := ih rest (by omega)
        simp only [List.length_cons]
        omega

theorem replaceAll_length_mono {pat rep : List Char} (h : pat.length ≤ rep.length)
    (t : List Char) : t.length ≤ (replaceAll pat rep t).length := by
  have heq := replaceAll_length_eq pat rep t.length t (Nat.le_refl _)
  have hmul : countOccs pat t * pat.length ≤ countOccs pat t * rep.length :=
    Nat.mul_le_mul_left _ h
  omega

/-! ### Splitting into lines and joining back -/

theorem splitLines_ne_nil {x : List Char} (h : x ≠ []) : splitLines x ≠ [] := by
  cases x with
  | nil => exact absurd rfl h
  | cons c rest =>
    simp only [splitLines]
    by_cases hc : c = '\n'
    · simp [hc]
    · rw [if_neg hc]
      rcases hsr : splitLines rest with _ | ⟨l, ls⟩ <;> simp

theorem flatten_splitLines : ∀ x : List Char, (splitLines x).flatten = x := by
  intro x
  induction x with
  | nil => rfl
  | cons c rest ih =>
    simp only [splitLines]
    by_cases hc : c = '\n'
    · subst hc
      simp [ih]
    · rw [if_neg hc]
      rcases hsr : splitLines rest with _ | ⟨l, ls⟩
      · have hr : rest = [] := by
          by_contra hne
          exact splitLines_ne_nil hne hsr
        subst hr
        simp
      · rw [hsr] at ih
        simp only [List.flatten_cons] at ih ⊢
        simp [ih]

theorem splitLines_line_append {b : List Char} (hb : '\n' ∉ b) (z : List Char) :
    splitLines (b ++ '\n' :: z) = (b ++ ['\n']) :: splitLines z := by
  induction b with
  | nil => simp [splitLines]
  | cons c b' ih =>
    have hc : ¬ (c = '\n') := by
      intro h
      exact hb (h ▸ List.mem_cons_self c b')
    have hb' : '\n' ∉ b' := fun h => hb (List.mem_cons_of_mem c h)
    simp only [List.cons_append, splitLines, if_neg hc, List.append_eq, ih hb']

theorem splitLines_flatten_append :
    ∀ ls : List (List Char), (∀ l ∈ ls, lineOK l) →
      ∀ r, splitLines (ls.flatten ++ r) = ls ++ splitLines r := by
  intro ls
  induction ls with
  | nil =>
    intro _ r
    simp
  | cons l ls' ih =>
    intro h r
    obtain ⟨b, hb, hbnl⟩ := h l (List.mem_cons_self l ls')
    subst hb
    have harr : ((b ++ ['\n']) :: ls').flatten ++ r = b ++ '\n' :: (ls'.flatten ++ r) := by
      simp
    rw [harr, splitLines_line_append hbnl,
      ih (fun l' hl' => h l' (List.mem_cons_of_mem _ hl')) r]
    rfl

theorem splitLines_dropLast_lineOK :
    ∀ x : List Char, ∀ l ∈ (splitLines x).dropLast, lineOK l := by
  intro x
  induction x with
  | nil =>
    intro l hl
    simp [splitLines] at hl
  | cons c rest ih =>
    intro l hl
    simp only [splitLines] at hl
    by_cases hc : c = '\n'
    · rw [if_pos hc] at hl
      rcases hsr : splitLines rest with _ | ⟨l0, ls0⟩
      · rw [hsr] at hl
        simp at hl
      · rw [hsr] at hl
        rw [List.dropLast_cons_of_ne_nil (by simp)] at hl
        rcases List.mem_cons.mp hl with h | h
        · subst h
          exact ⟨[], by simp [hc], by simp⟩
        · exact ih l (by rw [hsr]; exact h)
    · rw [if_neg hc] at hl
      rcases hsr : splitLines rest with _ | ⟨l0, ls0⟩
      · rw [hsr] at hl
        simp at hl
      · rw [hsr] at hl
        cases ls0 with
        | nil => simp at hl
        | cons l1 ls1 =>
          rw [List.dropLast_cons_of_ne_nil (by simp)] at hl
          rcases List.mem_cons.mp hl with h | h
          · subst h
            have h0 : l0 ∈ (splitLines rest).dropLast := by
              rw [hsr, List.dropLast_cons_of_ne_nil (by simp)]
              exact List.mem_cons_self _ _
            obtain ⟨b, hb, hbnl⟩ := ih l0 h0
            refine ⟨c :: b, by simp [hb], ?_⟩
            intro hmem
            rcases List.mem_cons.mp hmem with h' | h'
            · exact hc h'.symm
            · exact hbnl h'
          · refine ih l ?_
            rw [hsr, List.dropLast_cons_of_ne_nil (by simp)]
            exact List.mem_cons_of_mem _ h

theorem prefix_splitLines :
    ∀ pat x : List Char, '\n' ∉ pat → pat <+: x →
      pat = [] ∨ ∃ l ls, splitLines x = l :: ls ∧ pat <+: l := by
  intro pat
  induction pat with
  | nil =>
    intro x _ _
    exact Or.inl rfl
  | cons a pat' ih =>
    intro x hnl hp
    right
    obtain ⟨r, hr⟩ := hp
    subst hr
    have ha : ¬ (a = '\n') := by
      intro h
      exact hnl (h ▸ List.mem_cons_self a pat')
    have hnl' : '\n' ∉ pat' := fun h => hnl (List.mem_cons_of_mem a h)
    simp only [List.cons_append, splitLines, if_neg ha, List.append_eq]
    rcases ih (pat' ++ r) hnl' (List.prefix_append pat' r) with h0 | ⟨l0, ls0, hs, hpl⟩
    · subst h0
      rcases hsr : splitLines r with _ | ⟨l1, ls1⟩
      · refine ⟨[a], [], ?_, List.prefix_refl [a]⟩
        simp [hsr]
      · refine ⟨a :: l1, ls1, ?_, List.cons_prefix_cons.mpr ⟨rfl, List.nil_prefix⟩⟩
        simp [hsr]
    · rw [hs]
      exact ⟨a :: l0, ls0, rfl, List.cons_prefix_cons.mpr ⟨rfl, hpl⟩⟩

/-- A newline-free occurrence in a text lies inside one of its lines. -/
theorem infix_splitLines {pat : List Char} (hnl : '\n' ∉ pat) (hne : pat ≠ []) :
    ∀ x, pat <:+: x → ∃ l ∈ splitLines x, pat <:+: l := by
  intro x
  induction x with
  | nil =>
    intro h
    exact absurd (List.eq_nil_of_infix_nil h) hne
  | cons c rest ih =>
    intro h
    rcases List.infix_cons_iff.mp h with hp | hi
    · rcases prefix_splitLines pat (c :: rest) hnl hp with h0 | ⟨l, ls, hs, hpl⟩
      · exact absurd h0 hne
      · exact ⟨l, by rw [hs]; exact List.mem_cons_self _ _, hpl.isInfix⟩
    · obtain ⟨l, hl, hpl⟩ := ih hi
      simp only [splitLines]
      by_cases hc : c = '\n'
      · rw [if_pos hc]
        exact ⟨l, List.mem_cons_of_mem _ hl, hpl⟩
      · rw [if_neg hc]
        rcases hsr : splitLines rest with _ | ⟨l0, ls0⟩
        · rw [hsr] at hl
          simp at hl
        · rw [hsr] at hl
          rcases List.mem_cons.mp hl with h0 | h0
          · subst h0
            exact ⟨c :: l, List.mem_cons_self _ _, List.infix_cons hpl⟩
          · exact ⟨l, List.mem_cons_of_mem _ h0, hpl⟩

/-! ### The injection loop -/

theorem inject_eq_flatten_map (ls : List (List Char)) :
    inject ls =
      (ls.map fun l => if containsSub anchor l then [l, insertion] else [l]).flatten := by
  induction ls with
  | nil => rfl
  | cons l rest ih =>
    simp only [inject, List.map_cons, List.flatten_cons]
    by_cases h : containsSub anchor l
    · rw [if_pos h, if_pos h, ih]
      rfl
    · rw [if_neg h, if_neg h, ih]
      rfl

theorem inject_id {ls : List (List Char)} (h : ∀ l ∈ ls, containsSub anchor l = false) :
    inject ls = ls := by
  induction ls with
  | nil => rfl
  | cons l rest ih =>
    simp only [inject]
    rw [if_neg (by simp [h l (List.mem_cons_self l rest)]),
      ih fun l' hl' => h l' (List.mem_cons_of_mem _ hl')]

theorem inject_length (ls : List (List Char)) :
    (inject ls).length = ls.length + ls.countP (fun l => containsSub anchor l) := by
  induction ls with
  | nil => rfl
  | cons l rest ih =>
    simp only [inject, List.countP_cons]
    by_cases h : containsSub anchor l
    · rw [if_pos h]
      simp only [List.length_cons, ih, if_pos h]
      omega
    · rw [if_neg h]
      simp only [List.length_cons, ih, if_neg h]
      omega

theorem inject_flatten_length (ls : List (List Char)) :
    (inject ls).flatten.length =
      ls.flatten.length + ls.countP (fun l => containsSub anchor l) * insertion.length := by
  induction ls with
  | nil => rfl
  | cons l rest ih =>
    simp only [inject, List.countP_cons]
    by_cases h : containsSub anchor l
    · rw [if_pos h]
      simp only [List.flatten_cons, List.length_append, ih, if_pos h, Nat.add_mul, one_mul]
      omega
    · rw [if_neg h]
      simp only [List.flatten_cons, List.length_append, ih, if_neg h, Nat.add_mul, zero_mul]
      omega

theorem mem_inject_of_mem {ls : List (List Char)} {l : List Char} (h : l ∈ ls) :
    l ∈ inject ls := by
  induction ls with
  | nil => simp at h
  | cons l0 rest ih =>
    simp only [inject]
    rcases List.mem_cons.mp h with h0 | h0
    · subst h0
      by_cases hc : containsSub anchor l
      · rw [if_pos hc]
        exact List.mem_cons_self _ _
      · rw [if_neg hc]
        exact List.mem_cons_self _ _
    · by_cases hc : containsSub anchor l0
      · rw [if_pos hc]
        exact List.mem_cons_of_mem _ (List.mem_cons_of_mem _ (ih h0))
      · rw [if_neg hc]
        exact List.mem_cons_of_mem _ (ih h0)

theorem mem_of_mem_inject {ls : List (List Char)} {l : List Char} :
    l ∈ inject ls → l ∈ ls ∨ l = insertion := by
  induction ls with
  | nil =>
    intro h
    simp [inject] at h
  | cons l0 rest ih =>
    intro h
    simp only [inject] at h
    by_cases hc : containsSub anchor l0
    · rw [if_pos hc] at h
      rcases List.mem_cons.mp h with h0 | h0
      · exact Or.inl (h0 ▸ List.mem_cons_self _ _)
      · rcases List.mem_cons.mp h0 with h1 | h1
        · exact Or.inr h1
        · rcases ih h1 with h2 | h2
          · exact Or.inl (List.mem_cons_of_mem _ h2)
          · exact Or.inr h2
    · rw [if_neg hc] at h
      rcases List.mem_cons.mp h with h0 | h0
      · exact Or.inl (h0 ▸ List.mem_cons_self _ _)
      · rcases ih h0 with h2 | h2
        · exact Or.inl (List.mem_cons_of_mem _ h2)
        · exact Or.inr h2

theorem inject_append (ls1 ls2 : List (List Char)) :
    inject (ls1 ++ ls2) = inject ls1 ++ inject ls2 := by
  induction ls1 with
  | nil => rfl
  | cons l rest ih =>
    simp only [List.cons_append, inject, List.append_eq]
    by_cases hc : containsSub anchor l
    · rw [if_pos hc, ih]
      simp [hc]
    · rw [if_neg hc, ih]
      simp [hc]

/-! ### The six substitutions as a chain -/

theorem rewriteAll_id {t : List Char} (h : ∀ p ∈ pats, containsSub p t = false) :
    rewriteAll t = t := by
  have e1 : replaceAll p1 r1 t = t :=
    replaceAll_id_of_not_contains t (h p1 (by simp [pats]))
  have e2 : replaceAll p2 r2 t = t :=
    replaceAll_id_of_not_contains t (h p2 (by simp [pats]))
  have e3 : replaceAll p3 r3 t = t :=
    replaceAll_id_of_not_contains t (h p3 (by simp [pats]))
  have e4 : replaceAll p4 r4 t = t :=
    replaceAll_id_of_not_contains t (h p4 (by simp [pats]))
  have e5 : replaceAll p5 r5 t = t :=
    replaceAll_id_of_not_contains t (h p5 (by simp [pats]))
  have e6 : replaceAll p6 r6 t = t :=
    replaceAll_id_of_not_contains t (h p6 (by simp [pats]))
  rw [rewriteAll, e1, e2, e3, e4, e5, e6]

/-- Every replacement is at least as long as its pattern, so the rewrite
step never shortens the text. -/
theorem rewriteAll_length_mono (t : List Char) : t.length ≤ (rewriteAll t).length := by
  have m1 := @replaceAll_length_mono p1 r1 (by decide) t
  have m2 := @replaceAll_length_mono p2 r2 (by decide) (replaceAll p1 r1 t)
  have m3 := @replaceAll_length_mono p3 r3 (by decide)
    (replaceAll p2 r2 (replaceAll p1 r1 t))
  have m4 := @replaceAll_length_mono p4 r4 (by decide)
    (replaceAll p3 r3 (replaceAll p2 r2 (replaceAll p1 r1 t)))
  have m5 := @replaceAll_length_mono p5 r5 (by decide)
    (replaceAll p4 r4 (replaceAll p3 r3 (replaceAll p2 r2 (replaceAll p1 r1 t))))
  have m6 := @replaceAll_length_mono p6 r6 (by decide)
    (replaceAll p5 r5 (replaceAll p4 r4 (replaceAll p3 r3
      (replaceAll p2 r2 (replaceAll p1 r1 t)))))
  rw [rewriteAll]
  omega

/-- No rule pattern can overlap an occurrence of the anchor, so the anchor
survives the whole rewrite step. -/
theorem rewriteAll_infix_anchor {t : List Char} (h : anchor <:+: t) :
    anchor <:+: rewriteAll t := by
  have s1 := @infix_replaceAll anchor p1 r1 (by decide) t.length t (Nat.le_refl _) h
  have s2 := @infix_replaceAll anchor p2 r2 (by decide) _ _ (Nat.le_refl _) s1
  have s3 := @infix_replaceAll anchor p3 r3 (by decide) _ _ (Nat.le_refl _) s2
  have s4 := @infix_replaceAll anchor p4 r4 (by decide) _ _ (Nat.le_refl _) s3
  have s5 := @infix_replaceAll anchor p5 r5 (by decide) _ _ (Nat.le_refl _) s4
  have s6 := @infix_replaceAll anchor p6 r6 (by decide) _ _ (Nat.le_refl _) s5
  exact s6

/-! ### Whole-pipeline facts -/

/-- If some line of `y` contains the anchor, the pipeline grows the text by
at least one insertion. -/
theorem transform_length_lb {y : List Char}
    (h : ∃ l ∈ splitLines y, containsSub anchor l = true) :
    y.length + insertion.length ≤ (transform y).length := by
  have h1 : 1 ≤ (splitLines y).countP (fun l => containsSub anchor l) := by
    obtain ⟨l, hl, hc⟩ := h
    exact List.countP_pos_iff.mpr ⟨l, hl, hc⟩
  have h2 := inject_flatten_length (splitLines y)
  rw [flatten_splitLines y] at h2
  have h3 := rewriteAll_length_mono (inject (splitLines y)).flatten
  have h4 : insertion.length ≤
      (splitLines y).countP (fun l => containsSub anchor l) * insertion.length := by
    calc insertion.length = 1 * insertion.length := (one_mul _).symm
    _ ≤ _ := Nat.mul_le_mul_right _ h1
  show y.length + insertion.length ≤ (rewriteAll (inject (splitLines y)).flatten).length
  omega

/-- The anchor occurs in the pipeline output whenever it occurs in a line
of the input. -/
theorem anchor_infix_transform {y : List Char}
    (h : ∃ l ∈ splitLines y, containsSub anchor l = true) :
    anchor <:+: transform y := by
  obtain ⟨l, hl, hc⟩ := h
  have h1 : anchor <:+: l := (containsSub_iff anchor l).mp hc
  have h3 : l <:+: (inject (splitLines y)).flatten :=
    List.infix_of_mem_flatten (mem_inject_of_mem hl)
  exact rewriteAll_infix_anchor (h1.trans h3)

/-- An anchor line of the input leaves an anchor line in the output. -/
theorem exists_anchor_line_transform {y : List Char}
    (h : ∃ l ∈ splitLines y, containsSub anchor l = true) :
    ∃ l ∈ splitLines (transform y), containsSub anchor l = true := by
  obtain ⟨l, hl, hin⟩ :=
    @infix_splitLines anchor (by decide) (by decide) _ (anchor_infix_transform h)
  exact ⟨l, hl, (containsSub_iff anchor l).mpr hin⟩

/-! ### The claims -/

/-- C1: the Anchor Injector copies every line and, immediately after each
line that contains the anchor substring, emits exactly one copy of the
insertion line (the per-line block form); with `k` matching lines the
output holds exactly `k` more elements than the input (one insertion per
match, no deduplication); with zero matching lines the output equals the
input unchanged. -/
theorem C1_injector (ls : List (List Char)) :
    inject ls =
      (ls.map fun l => if containsSub anchor l then [l, insertion] else [l]).flatten ∧
    (inject ls).length = ls.length + ls.countP (fun l => containsSub anchor l) ∧
    ((∀ l ∈ ls, containsSub anchor l = false) → inject ls = ls) :=
  ⟨inject_eq_flatten_map ls, inject_length ls, fun h => inject_id h⟩

/-- Witness for C1: at a concrete anchor-free input the injector is the
identity, by the third conjunct of `C1_injector`. -/
theorem C1_injector_witness :
    inject [['a'], ['b', '\n']] = [['a'], ['b', '\n']] :=
  (C1_injector [['a'], ['b', '\n']]).2.2 (by decide)

/-- C2: when the target file does not exist the run aborts with
`NotFoundError`, the file store is unchanged, and the write step is never
reached. -/
theorem C2_notFound : run none = (none, Except.error RunErr.notFoundError) := rfl

/-- C3: on the spec's concrete scenario the chain yields exactly the
expected text; rule 1 rewrites the length comparison, rule 2 the index
expression (their composition already yields the final text), and each of
rules 3 to 6 leaves the final text unchanged. -/
theorem C3_scenario :
    rewriteAll "if len(fields) <= 8 \x7b return fields[8] \x7d".toList =
      "if len(fields) <= storage.FieldLevel \x7b return fields[storage.FieldLevel] \x7d".toList ∧
    replaceAll p2 r2 (replaceAll p1 r1
        "if len(fields) <= 8 \x7b return fields[8] \x7d".toList) =
      "if len(fields) <= storage.FieldLevel \x7b return fields[storage.FieldLevel] \x7d".toList ∧
    replaceAll p3 r3
        "if len(fields) <= storage.FieldLevel \x7b return fields[storage.FieldLevel] \x7d".toList =
      "if len(fields) <= storage.FieldLevel \x7b return fields[storage.FieldLevel] \x7d".toList ∧
    replaceAll p4 r4
        "if len(fields) <= storage.FieldLevel \x7b return fields[storage.FieldLevel] \x7d".toList =
      "if len(fields) <= storage.FieldLevel \x7b return fields[storage.FieldLevel] \x7d".toList ∧
    replaceAll p5 r5
        "if len(fields) <= storage.FieldLevel \x7b return fields[storage.FieldLevel] \x7d".toList =
      "if len(fields) <= storage.FieldLevel \x7b return fields[storage.FieldLevel] \x7d".toList ∧
    replaceAll p6 r6
        "if len(fields) <= storage.FieldLevel \x7b return fields[storage.FieldLevel] \x7d".toList =
      "if len(fields) <= storage.FieldLevel \x7b return fields[storage.FieldLevel] \x7d".toList := by
  decide

/-- C4: the program's rewrite step is exactly the left fold of the six
rules over the text, and each rule's substitution replaces every
non-overlapping occurrence across the whole text, not just the first: the
output length changes by the pattern/replacement difference once per
counted occurrence. -/
theorem C4_fold :
    (∀ t, rewriteAll t = foldRules rules t) ∧
    (∀ pat rep t, (replaceAll pat rep t).length + countOccs pat t * pat.length =
        t.length + countOccs pat t * rep.length) :=
  ⟨fun _ => rfl, fun pat rep t => replaceAll_length_eq pat rep t.length t (Nat.le_refl _)⟩

/-- C5: rule order is observable: exchanging rules 1 and 3 of the list
changes the output on this text, where rule 1's replacement ends in `l`
and the following text `en(fields) <= 5` then completes a fresh match for
rule 3. -/
theorem C5_order :
    foldRules rulesSwap13 "len(fields) <= 8en(fields) <= 5".toList ≠
      foldRules rules "len(fields) <= 8en(fields) <= 5".toList := by
  decide

/-- C6 is false as stated: the rewrite step is not idempotent on every
text.  Here rule 1's replacement ends in `l`, the residual text
`en(fields) <= 8` completes a fresh `len(fields) <= 8` across the
boundary, and the second pass rewrites it. -/
theorem C6_counterexample :
    rewriteAll (rewriteAll "len(fields) <= 8en(fields) <= 8".toList) ≠
      rewriteAll "len(fields) <= 8en(fields) <= 8".toList := by
  decide

/-- C6 (amended): no rule's replacement text contains any rule's pattern,
and the rewrite step is idempotent on every text whose once-rewritten form
contains no occurrence of any rule pattern; unconditional idempotence
fails only because a replacement boundary can recreate a pattern. -/
theorem C6_amended :
    (∀ p ∈ pats, ∀ r ∈ [r1, r2, r3, r4, r5, r6], containsSub p r = false) ∧
    (∀ t, (∀ p ∈ pats, containsSub p (rewriteAll t) = false) →
      rewriteAll (rewriteAll t) = rewriteAll t) :=
  ⟨by decide, fun _ h => rewriteAll_id h⟩

/-- Witness for the amended C6 at the text `fields[8]`. -/
theorem C6_amended_witness :
    rewriteAll (rewriteAll "fields[8]".toList) = rewriteAll "fields[8]".toList :=
  C6_amended.2 "fields[8]".toList (by decide)

/-- C7: on any input with an anchor line the pipeline is not idempotent:
the anchor substring survives the transform, so the second run inserts
again and its output differs from the first run's output. -/
theorem C7_not_idempotent {x : List Char}
    (h : ∃ l ∈ splitLines x, containsSub anchor l = true) :
    transform (transform x) ≠ transform x := by
  have h3 := transform_length_lb (exists_anchor_line_transform h)
  have hpos : 0 < insertion.length := by decide
  intro he
  rw [he] at h3
  omega

/-- Witness for C7 at a file holding exactly the anchor import line. -/
theorem C7_not_idempotent_witness :
    transform (transform "\t\"github.com/cristianoliveira/tmux-intray/cmd\"\n".toList) ≠
      transform "\t\"github.com/cristianoliveira/tmux-intray/cmd\"\n".toList :=
  C7_not_idempotent (by decide)

/-- C8: if a rule's pattern fails to compile, the run aborts with that
`PatternError` and the file store keeps the original content: the write
step is never reached.  Moreover the program's own six raw patterns all
compile, and the whole substitution chain runs (producing `rewriteAll`)
strictly before the write. -/
theorem C8_patternError (rs : List (List Char × List Char)) (c : List Char)
    (e : RunErr)
    (h : applyRules rs (inject (splitLines c)).flatten = Except.error e) :
    runWith rs (some c) = (some c, Except.error e) ∧
    (∀ t, applyRules rawRules t = Except.ok (rewriteAll t)) := by
  constructor
  · simp only [runWith, h]
  · intro t
    rfl

/-- Witness for C8: a dangling-backslash pattern aborts the run with
`PatternError` and the store keeps the original content. -/
theorem C8_patternError_witness :
    runWith [(['\\'], [])] (some "x\n".toList) =
      (some "x\n".toList, Except.error RunErr.patternError) :=
  (C8_patternError [(['\\'], [])] "x\n".toList RunErr.patternError rfl).1

/-- C9: when the final line contains the anchor and has no trailing
newline, the injector still appends the insertion as a new sequence
element, but the join concatenates it directly onto that line: splitting
the joined output back into lines yields `l ++ insertion` as one single
textual line rather than two. -/
theorem C9_no_trailing_newline {x : List Char} {ls : List (List Char)}
    {l : List Char} (hs : splitLines x = ls ++ [l])
    (hin : containsSub anchor l = true) (hnl : '\n' ∉ l) :
    (inject (splitLines x)).flatten = (inject ls).flatten ++ (l ++ insertion) ∧
    splitLines ((inject (splitLines x)).flatten) = inject ls ++ [l ++ insertion] := by
  have hinj : inject (splitLines x) = inject ls ++ [l, insertion] := by
    rw [hs, inject_append]
    simp [inject, hin]
  have hwf : ∀ l' ∈ inject ls, lineOK l' := by
    intro l' hl'
    rcases mem_of_mem_inject hl' with h0 | h0
    · apply splitLines_dropLast_lineOK x
      rw [hs, List.dropLast_concat]
      exact h0
    · subst h0
      exact ⟨insertionBody, by decide, by decide⟩
  have hflat : (inject (splitLines x)).flatten = (inject ls).flatten ++ (l ++ insertion) := by
    rw [hinj, List.flatten_append]
    simp
  refine ⟨hflat, ?_⟩
  have hbody : '\n' ∉ l ++ insertionBody := by
    intro hmem
    rcases List.mem_append.mp hmem with h0 | h0
    · exact hnl h0
    · exact absurd h0 (by decide)
  have hone : splitLines (l ++ insertion) = [l ++ insertion] := by
    have hrw : l ++ insertion = (l ++ insertionBody) ++ '\n' :: [] := by
      rw [show insertion = insertionBody ++ ['\n'] from by decide]
      simp
    rw [hrw, splitLines_line_append hbody]
    simp [splitLines]
  rw [hflat, splitLines_flatten_append (inject ls) hwf, hone]

/-- Witness for C9: a one-line file holding the anchor import without a
final newline; the insertion ends up glued to that same line. -/
theorem C9_no_trailing_newline_witness :
    splitLines ((inject (splitLines
        "\t\"github.com/cristianoliveira/tmux-intray/cmd\"".toList)).flatten) =
      ["\t\"github.com/cristianoliveira/tmux-intray/cmd\"".toList ++ insertion] :=
  (@C9_no_trailing_newline "\t\"github.com/cristianoliveira/tmux-intray/cmd\"".toList
      [] "\t\"github.com/cristianoliveira/tmux-intray/cmd\"".toList
      (by decide) (by decide) (by decide)).2

/-- Text-mode decoding is the identity exactly on carriage-return-free
content. -/
theorem univNewlines_id {x : List Char} (h : '\r' ∉ x) : univNewlines x = x := by
  induction x with
  | nil => rfl
  | cons c rest ih =>
    have hc : ¬ (c = '\r') := fun he => h (he ▸ List.mem_cons_self c rest)
    have hr : '\r' ∉ rest := fun hm => h (List.mem_cons_of_mem c hm)
    cases rest with
    | nil => simp [univNewlines, hc]
    | cons d rest2 =>
      simp only [univNewlines, if_neg hc]
      rw [ih hr]

/-- On decoded content with no anchor line and no pattern occurrence, the
in-memory transformation is the identity. -/
theorem transform_id_of_no_match {x : List Char}
    (h1 : ∀ l ∈ splitLines x, containsSub anchor l = false)
    (h2 : ∀ p ∈ pats, containsSub p x = false) :
    transform x = x := by
  rw [transform, inject_id h1, flatten_splitLines, rewriteAll_id h2]

/-- C10 is false as stated: the raw content `a\r\nb` has no anchor line
and no pattern occurrence, yet the text-mode read decodes `\r\n` to `\n`,
so the content written back is `a\nb`, not byte-for-byte the original. -/
theorem C10_counterexample :
    (∀ l ∈ readLines "a\r\nb".toList, containsSub anchor l = false) ∧
    (∀ p ∈ pats, containsSub p "a\r\nb".toList = false) ∧
    transformFile "a\r\nb".toList ≠ "a\r\nb".toList := by
  decide

/-- C10 (amended): on raw content free of carriage returns — where the
text-mode decode is the identity — with no anchor line and no occurrence
of any rule pattern, the content written back is byte-for-byte the
original: line endings and a missing final newline are preserved
exactly. -/
theorem C10_roundtrip_amended {x : List Char} (hr : '\r' ∉ x)
    (h1 : ∀ l ∈ readLines x, containsSub anchor l = false)
    (h2 : ∀ p ∈ pats, containsSub p x = false) :
    transformFile x = x := by
  have hu : univNewlines x = x := univNewlines_id hr
  rw [readLines, hu] at h1
  show rewriteAll (inject (readLines x)).flatten = x
  rw [readLines, hu]
  exact transform_id_of_no_match h1 h2

/-- Witness for the amended C10 on a two-line text without a final
newline. -/
theorem C10_roundtrip_amended_witness :
    transformFile "package main\nvar x = 1".toList =
      "package main\nvar x = 1".toList :=
  C10_roundtrip_amended (by decide) (by decide) (by decide)
